import Mathlib



/-! A shallow embedding of the Marketdata discovery and extraction pipeline
    (promo_discover.py, extract_deals.py, osm_discover.py), together with
    theorems checking the specification claims against it. Strings are
    modelled as lists of characters; network responses are supplied by
    oracle functions; randomness is supplied by injected streams, following
    the design note of the spec on injectable randomness. -/

/-- Strings of the modelled program, as lists of characters. -/
abbrev Str : Type := List Char

/-- Shorthand turning a Lean string literal into a model string. -/
def str (s : String) : Str := s.toList

/-- Lowercasing of a model string, character by character (models Python
    str.lower on the ASCII range, which is all the code compares). -/
def toLowerStr (s : Str) : Str := s.map Char.toLower

/-- Python str.strip default whitespace characters (the ASCII ones). -/
def isPySpace (c : Char) : Bool :=
  c = ' ' || c = '\t' || c = '\n' || c = '\x0b' || c = '\x0c' || c = '\r'

/-- Python str.strip(): remove leading and trailing whitespace. -/
def pyStrip (s : Str) : Str :=
  ((s.dropWhile isPySpace).reverse.dropWhile isPySpace).reverse

/-- Boolean test: the first list is a prefix of the second. -/
def isPrefB : Str → Str → Bool
  | [], _ => true
  | _ :: _, [] => false
  | a :: as, b :: bs => a == b && isPrefB as bs

/-- Python str.startswith. -/
def startsWithStr (pre s : Str) : Bool := isPrefB pre s

/-- Boolean substring test: models Python `in` on strings, and re.search of a
    literal word. The needle is the first argument. -/
def containsSub (needle : Str) : Str → Bool
  | [] => isPrefB needle []
  | c :: t => isPrefB needle (c :: t) || containsSub needle t

/-- Characters allowed in a URL scheme (CPython urllib.parse scheme_chars). -/
def isSchemeChar (c : Char) : Bool :=
  c.isAlpha || c.isDigit || c = '+' || c = '-' || c = '.'

/-- The character is not a colon. -/
def notColon (c : Char) : Bool := c != ':'

/-- CPython urlsplit accepts a scheme candidate when it is nonempty, starts
    with an ASCII letter, and has only scheme characters. -/
def validScheme (b : Str) : Bool :=
  match b with
  | [] => false
  | c :: _ => c.isAlpha && b.all isSchemeChar

/-- The url remaining after CPython urlsplit removes a valid scheme prefix
    (the text after the first colon); the whole url when no valid scheme is
    present. -/
def afterScheme (s : Str) : Str :=
  match s.dropWhile notColon with
  | [] => s
  | _ :: rest => if validScheme (s.takeWhile notColon) then rest else s

/-- The scheme CPython urlsplit reports, lowercased; empty when absent. -/
def schemeOf (s : Str) : Str :=
  match s.dropWhile notColon with
  | [] => []
  | _ :: _ =>
    if validScheme (s.takeWhile notColon) then toLowerStr (s.takeWhile notColon) else []

/-- Characters that do not terminate the netloc in CPython urlsplit. -/
def notDelim (c : Char) : Bool := c != '/' && c != '?' && c != '#'

/-- The netloc of the post-scheme remainder: when it begins with two slashes,
    the text up to the first slash, question mark or hash; otherwise empty. -/
def netlocTail (r : Str) : Str :=
  match r with
  | c1 :: c2 :: t => if c1 == '/' && c2 == '/' then t.takeWhile notDelim else []
  | _ => []

/-- The netloc CPython urlsplit extracts from a url string. -/
def netlocRaw (s : Str) : Str := netlocTail (afterScheme s)

/-- CPython urlsplit raises ValueError when the netloc has a square bracket
    on one side only (an invalid IPv6 URL). -/
def badBrackets (n : Str) : Bool := (n.contains '[') != (n.contains ']')

/-- The result of urllib.parse.urlparse, restricted to the fields the
    program reads. -/
structure PyUrl where
  scheme : Str
  netloc : Str
deriving DecidableEq

/-- Models urllib.parse.urlparse: the parsed scheme and netloc, or the
    ValueError CPython raises on a mismatched-bracket netloc. (The extra
    bracketed-host content validation of CPython 3.11+ is not modelled.) -/
def pyUrlparse (s : Str) : Except Unit PyUrl :=
  if badBrackets (netlocRaw s) then .error ()
  else .ok ⟨schemeOf s, netlocRaw s⟩

/-- promo_discover.normalize_base: trim, empty check, https prefixing, then
    the scheme://netloc of the urlparse result. A urlparse error
    propagates, exactly as the unguarded call in the source does. -/
def normalize_base (url : Str) : Except Unit Str :=
  let url1 := pyStrip url
  if url1 = [] then .ok []
  else
    let url2 :=
      if startsWithStr (str "http://") url1 || startsWithStr (str "https://") url1
      then url1 else str "https://" ++ url1
    match pyUrlparse url2 with
    | .error e => .error e
    | .ok p => .ok (p.scheme ++ str "://" ++ p.netloc)

/-- promo_discover.same_domain: lowercased netloc equality; any parse error
    of either argument yields false (the try/except in the source). -/
def same_domain (base u : Str) : Bool :=
  match pyUrlparse base, pyUrlparse u with
  | .ok pb, .ok pu => toLowerStr pb.netloc == toLowerStr pu.netloc
  | _, _ => false

/-- Modelled from the spec: the "hostname" of a URL in the sense the spec
    word is used in section 4.1 — the host part of the authority with any
    userinfo and port removed, lowercased, as Python urlparse(...).hostname
    computes it. It exists only to compare the spec wording against
    same_domain, which compares whole netlocs. -/
def spec_hostname (s : Str) : Option Str :=
  match pyUrlparse s with
  | .error _ => none
  | .ok p =>
    let afterAt := (p.netloc.reverse.takeWhile (fun c => c != '@')).reverse
    let host :=
      match afterAt with
      | '[' :: t => t.takeWhile (fun c => c != ']')
      | _ => afterAt.takeWhile (fun c => c != ':')
    some (toLowerStr host)

/-- Decimal digits to a natural number, most significant first. -/
def digitsToNat (s : Str) : Nat :=
  s.foldl (fun n c => 10 * n + (c.toNat - 48)) 0

/-- Python float(s) for a string made of digits and dots only (which is the
    only shape extract_prices can pass it): an optional integer part, an
    optional dot and fraction part, at least one digit overall and at most
    one dot; anything else — in particular the empty string — fails. The
    value is modelled as an exact rational. -/
def pyFloatDigits (s : Str) : Option ℚ :=
  let intPart := s.takeWhile (fun c => c != '.')
  match s.dropWhile (fun c => c != '.') with
  | [] =>
    if s ≠ [] && s.all Char.isDigit then some (digitsToNat s) else none
  | _ :: frac =>
    if (intPart ≠ [] || frac ≠ []) && intPart.all Char.isDigit &&
        frac.all Char.isDigit && frac.all (fun c => c != '.') then
      some ((digitsToNat intPart : ℚ) + (digitsToNat frac : ℚ) / (10 : ℚ) ^ frac.length)
    else none

/-- The \s character class of the regexes (ASCII part). -/
def isSpaceRe (c : Char) : Bool :=
  c = ' ' || c = '\t' || c = '\n' || c = '\r' || c = '\x0b' || c = '\x0c'

/-- After \d+ of PRICE_RE: the optional (?:[\.,]\d{2}) group, greedily. -/
def priceFracTail (s : Str) : Str :=
  match s with
  | c1 :: c2 :: c3 :: t =>
    if (c1 == '.' || c1 == ',') && c2.isDigit && c3.isDigit then t else s
  | _ => s

/-- After the currency sign of PRICE_RE: match \s?\d+(?:[\.,]\d{2})? and
    return the remainder of the text, or none when the pattern fails. -/
def priceMatchTail (s : Str) : Option Str :=
  match s with
  | [] => none
  | c :: t =>
    if isSpaceRe c then
      match t with
      | d :: _ => if d.isDigit then some (priceFracTail (t.dropWhile Char.isDigit)) else none
      | [] => none
    else if c.isDigit then some (priceFracTail (s.dropWhile Char.isDigit)) else none

/-- One pass of re.findall over PRICE_RE = (€|£)\s?\d+(?:[\.,]\d{2})? :
    scan left to right, at each currency sign try the rest of the pattern;
    on success emit the text of the single capture group — which is just the
    currency sign, because the only group in the pattern is (€|£) — and
    resume after the match. The fuel argument only bounds the recursion and
    is set to the text length. -/
def priceScanF : Nat → Str → List Str
  | 0, _ => []
  | _ + 1, [] => []
  | fuel + 1, c :: t =>
    if c == '€' || c == '£' then
      match priceMatchTail t with
      | some rest => [c] :: priceScanF fuel rest
      | none => priceScanF fuel t
    else priceScanF fuel t

/-- extract_deals.PRICE_RE.findall on a text. -/
def priceFindall (s : Str) : List Str := priceScanF s.length s

/-- The re.sub(r"[^\d\.]", "", p) step of extract_prices. -/
def keepDigitsDots (s : Str) : Str := s.filter (fun c => c.isDigit || c == '.')

/-- extract_deals.extract_prices: PRICE_RE.findall, then for each returned
    match strip it to digits and dots and parse it as a float, silently
    discarding failures, then sorted(set(vals)). -/
def extract_prices (text : Str) : List ℚ :=
  let vals := (priceFindall text).filterMap (fun p => pyFloatDigits (keepDigitsDots p))
  (vals.dedup).insertionSort (· ≤ ·)

/-- The \w character class defining the \b boundary of PERCENT_RE. -/
def isWordC (c : Char) : Bool := c.isAlpha || c.isDigit || c = '_'

/-- After the captured digits of PERCENT_RE: \s?% — an optional whitespace
    character and then the percent sign. -/
def percentAfter (s : Str) : Bool :=
  match s with
  | '%' :: _ => true
  | c :: '%' :: _ => isSpaceRe c
  | _ => false

/-- A match of \d{1,2}\s?% anchored at the current position: greedily two
    digits, falling back to one, then the optional space and percent sign.
    Returns the captured number. -/
def percentHere : Str → Option Nat
  | [] => none
  | c :: t =>
    if !c.isDigit then none
    else
      match t with
      | [] => none
      | d :: t2 =>
        if d.isDigit && percentAfter t2 then some (10 * (c.toNat - 48) + (d.toNat - 48))
        else if percentAfter t then some (c.toNat - 48)
        else none

/-- re.search over PERCENT_RE = \b(\d{1,2})\s?% : the leftmost position with
    a word boundary followed by the digits, optional whitespace and percent
    sign. The prev argument is the character just before the position. -/
def percentScan : Option Char → Str → Option Nat
  | _, [] => none
  | prev, c :: t =>
    let boundary :=
      match prev with
      | none => true
      | some p => !isWordC p
    match (if boundary then percentHere (c :: t) else none) with
    | some v => some v
    | none => percentScan (some c) t

/-- extract_deals.extract_discount: first PERCENT_RE match, as an integer. -/
def extract_discount (text : Str) : Option Nat := percentScan none text

/-- Python max over a list: none on the empty list (where Python raises). -/
def pyMax : List ℚ → Option ℚ
  | [] => none
  | x :: xs => some (xs.foldl max x)

/-- Python min over a list: none on the empty list (where Python raises). -/
def pyMin : List ℚ → Option ℚ
  | [] => none
  | x :: xs => some (xs.foldl min x)

/-- extract_deals.main, the old/new price choice: with at least two prices,
    old_price = max and new_price = min; with exactly one, it becomes
    new_price; with none, both stay null. Returns (old_price, new_price). -/
def assemble_prices (prices : List ℚ) : Option ℚ × Option ℚ :=
  if 2 ≤ prices.length then (pyMax prices, pyMin prices)
  else if prices.length = 1 then (none, prices[0]?)
  else (none, none)

/-- Python string comparison, as sorted() uses it on the URL strings:
    lexicographic by code point, a proper prefix sorts first. -/
def strLeB : Str → Str → Bool
  | [], _ => true
  | _ :: _, [] => false
  | a :: as, b :: bs => if a < b then true else if b < a then false else strLeB as bs

/-- The string comparison as a relation, for Mathlib's insertionSort. -/
def strLe (a b : Str) : Prop := strLeB a b = true

instance : DecidableRel strLe := fun a b => inferInstanceAs (Decidable (strLeB a b = true))

instance : IsTotal Str strLe :=
  ⟨by
    intro a
    induction a with
    | nil => intro b; left; rfl
    | cons x xs ih =>
      intro b
      cases b with
      | nil => right; rfl
      | cons y ys =>
        by_cases hxy : x < y
        · left; simp [strLe, strLeB, hxy]
        · by_cases hyx : y < x
          · right; simp [strLe, strLeB, hyx, hxy]
          · have hx : x = y := le_antisymm (not_lt.mp hyx) (not_lt.mp hxy)
            subst hx
            rcases ih ys with h | h
            · left; simp only [strLe, strLeB] at h ⊢; simp [h]
            · right; simp only [strLe, strLeB] at h ⊢; simp [h]⟩

instance : IsTrans Str strLe :=
  ⟨by
    intro l
    induction l with
    | nil => intro b c _ _; rfl
    | cons x xs ih =>
      intro b c hab hbc
      cases b with
      | nil => simp [strLe, strLeB] at hab
      | cons y ys =>
        cases c with
        | nil => simp [strLe, strLeB] at hbc
        | cons z zs =>
          simp only [strLe, strLeB] at hab hbc ⊢
          by_cases hxy : x < y
          · by_cases hyz : y < z
            · simp [lt_trans hxy hyz]
            · by_cases hzy : z < y
              · simp [hyz, hzy] at hbc
              · have hy : y = z := le_antisymm (not_lt.mp hzy) (not_lt.mp hyz)
                subst hy; simp [hxy]
          · by_cases hyx : y < x
            · simp [hxy, hyx] at hab
            · have hx : x = y := le_antisymm (not_lt.mp hyx) (not_lt.mp hxy)
              subst hx
              by_cases hxz : x < z
              · simp [hxz]
              · by_cases hzx : z < x
                · simp [hxz, hzx] at hbc
                · have hz : x = z := le_antisymm (not_lt.mp hzx) (not_lt.mp hxz)
                  subst hz
                  simp only [lt_irrefl, if_neg (lt_irrefl x), if_false] at hab hbc ⊢
                  exact ih _ _ hab hbc⟩

/-- One row of the promo_urls table that promo_discover.main accumulates. -/
structure PromoRow where
  store_name : Str
  category : Str
  addr : Str
  website : Str
  promo_url : Str
  priority : Nat
deriving DecidableEq

/-- The pandas sort order of promo_discover.main: priority descending, ties
    by store name ascending. -/
def rowLeB (a b : PromoRow) : Bool :=
  if b.priority < a.priority then true
  else if a.priority < b.priority then false
  else strLeB a.store_name b.store_name

/-- The row order as a relation, for Mathlib's insertionSort. -/
def rowLe (a b : PromoRow) : Prop := rowLeB a b = true

instance : DecidableRel rowLe := fun a b => inferInstanceAs (Decidable (rowLeB a b = true))

instance : IsTotal PromoRow rowLe :=
  ⟨by
    intro a b
    by_cases hba : b.priority < a.priority
    · left; simp [rowLe, rowLeB, hba]
    · by_cases hab : a.priority < b.priority
      · right; simp [rowLe, rowLeB, hab]
      · rcases IsTotal.total (r := strLe) a.store_name b.store_name with h | h
        · left
          simp only [strLe] at h
          simp [rowLe, rowLeB, hba, hab, h]
        · right
          simp only [strLe] at h
          simp [rowLe, rowLeB, hba, hab, h]⟩

instance : IsTrans PromoRow rowLe :=
  ⟨by
    intro a b c hab hbc
    simp only [rowLe, rowLeB] at hab hbc ⊢
    by_cases hba : b.priority < a.priority
    · by_cases hcb : c.priority < b.priority
      · simp [lt_trans hcb hba]
      · by_cases hbc2 : b.priority < c.priority
        · simp [hcb, hbc2] at hbc
        · have h : b.priority = c.priority := le_antisymm (not_lt.mp hcb) (not_lt.mp hbc2)
          simp [h ▸ hba]
    · by_cases hab2 : a.priority < b.priority
      · simp [hba, hab2] at hab
      · have h1 : a.priority = b.priority := le_antisymm (not_lt.mp hba) (not_lt.mp hab2)
        by_cases hcb : c.priority < b.priority
        · simp [h1 ▸ hcb]
        · by_cases hbc2 : b.priority < c.priority
          · simp [hcb, hbc2] at hbc
          · have h2 : b.priority = c.priority := le_antisymm (not_lt.mp hcb) (not_lt.mp hbc2)
            have hca : ¬ c.priority < a.priority := by rw [h1, h2]; exact lt_irrefl _
            have hac : ¬ a.priority < c.priority := by rw [h1, h2]; exact lt_irrefl _
            simp only [hba, hab2, if_neg, if_false] at hab
            simp only [hcb, hbc2, if_neg, if_false] at hbc
            have h3 : strLeB a.store_name c.store_name = true :=
              IsTrans.trans (r := strLe) a.store_name b.store_name c.store_name hab hbc
            simp [hca, hac, h3]⟩

/-- pandas drop_duplicates(subset=["promo_url"]) with the default keep set
    to first: a row is kept exactly when no earlier kept row had its
    promo_url; the seen argument lists the keys already kept. -/
def dropDupFirst (seen : List Str) : List PromoRow → List PromoRow
  | [] => []
  | r :: rest =>
    if r.promo_url ∈ seen then dropDupFirst seen rest
    else r :: dropDupFirst (r.promo_url :: seen) rest

/-- promo_discover.main, the final table stage: drop_duplicates by promo_url
    keeping the first occurrence, then the stable sort by priority
    descending and store name ascending. -/
def promo_dedup_sort (rows : List PromoRow) : List PromoRow :=
  (dropDupFirst [] rows).insertionSort rowLe

/-- The fixed keyword weight table of promo_discover.priority_score. -/
def SCORE_TABLE : List (Str × Nat) :=
  [(str "weekly", 6), (str "leaflet", 6), (str "catalogue", 6), (str "catalog", 5),
   (str "offers", 5), (str "promotions", 5), (str "deals", 5),
   (str "sale", 3), (str "clearance", 3), (str "special", 2), (str "outlet", 2)]

/-- promo_discover.priority_score: lowercase the url, then add the weight of
    every table keyword that occurs in it as a substring. -/
def priority_score (url : Str) : Nat :=
  SCORE_TABLE.foldl
    (fun score kp => if containsSub kp.1 (toLowerStr url) then score + kp.2 else score) 0

/-- The alternatives of the promo_discover.KEYWORDS pattern. -/
def KEYWORD_WORDS : List Str :=
  [str "offer", str "deal", str "promo", str "promotion", str "sale", str "clearance",
   str "special", str "outlet", str "weekly", str "catalog", str "catalogue",
   str "leaflet", str "save"]

/-- KEYWORDS.search on a string: some alternative of the pattern occurs,
    case-insensitively. -/
def kwSearch (s : Str) : Bool := KEYWORD_WORDS.any (fun w => containsSub w (toLowerStr s))

/-- The fixed Overpass endpoint list of osm_discover. -/
def OVERPASS_ENDPOINTS : List Str :=
  [str "https://overpass-api.de/api/interpreter",
   str "https://overpass.kumi.systems/api/interpreter",
   str "https://overpass.nchc.org.tw/api/interpreter"]

/-- The visible record of one osm_discover.overpass_post run: the outcome —
    the first successful response, or, once every attempt failed, the last
    error seen (none only with a zero attempt budget) — with the urls
    attempted and the backoff wait slept after each failed attempt. -/
structure RetryTrace (E R : Type) where
  outcome : Except (Option E) R
  calls : List Str
  waits : List ℚ

/-- osm_discover.overpass_post from a given attempt index: each attempt
    posts to pick(attempt) — random.choice over the endpoints, modelled as
    an injected choice stream — and on failure sleeps 2 ^ attempt +
    jitter(attempt) — random.random() modelled as an injected jitter
    stream — before the next attempt; a success returns at once; when the
    remaining attempt budget runs out the last error is raised. -/
def retryFrom {E R : Type} (respond : Nat → Str → Except E R) (pick : Nat → Str)
    (jitter : Nat → ℚ) : Nat → Nat → Option E → RetryTrace E R
  | _, 0, last => ⟨.error last, [], []⟩
  | attempt, rem + 1, _ =>
    match respond attempt (pick attempt) with
    | .ok r => ⟨.ok r, [pick attempt], []⟩
    | .error e =>
      let t := retryFrom respond pick jitter (attempt + 1) rem (some e)
      ⟨t.outcome, pick attempt :: t.calls, ((2 : ℚ) ^ attempt + jitter attempt) :: t.waits⟩

/-- osm_discover.overpass_post with a budget of `tries` attempts. -/
def overpass_post {E R : Type} (respond : Nat → Str → Except E R) (pick : Nat → Str)
    (jitter : Nat → ℚ) (tries : Nat) : RetryTrace E R :=
  retryFrom respond pick jitter 0 tries none

/-- The fixed probe path list promo_discover.COMMON_PATHS. -/
def COMMON_PATHS : List Str :=
  [str "/deals", str "/deal", str "/offers", str "/offer", str "/promotions",
   str "/promotion", str "/sale", str "/sales", str "/clearance", str "/special-offers",
   str "/specials", str "/weekly", str "/weekly-ad", str "/catalogue", str "/catalog",
   str "/leaflet", str "/outlet", str "/offers-and-promotions", str "/promos"]

/-- The scheme://netloc origin of a url, as urlsplit reads it. -/
def baseOrigin (s : Str) : Str := schemeOf s ++ str "://" ++ netlocRaw s

/-- Models urllib.parse.urljoin for the calls this program makes, whose base
    is always a normalize_base result (a bare scheme://netloc, no path): an
    empty reference returns the base; a reference with its own scheme is
    returned as is; a network-path reference //... takes the base scheme;
    an absolute path is appended to the base origin; any other reference is
    attached under the root path. -/
def pyUrljoin (base rel : Str) : Str :=
  if rel = [] then base
  else if schemeOf rel ≠ [] then rel
  else if startsWithStr (str "//") rel then schemeOf base ++ [':'] ++ rel
  else if startsWithStr (str "/") rel then baseOrigin base ++ rel
  else baseOrigin base ++ ['/'] ++ rel

/-- The u.split("#")[0] fragment strip. -/
def splitHash (s : Str) : Str := s.takeWhile (fun c => c != '#')

/-- After an opening loc tag: the non-greedy newline-free capture up to the
    first closing tag, with the text after that tag; none when the closing
    tag is missing before a newline or the end. -/
def locCapture : Str → Option (Str × Str)
  | [] => none
  | c :: t =>
    if isPrefB (str "</loc>") (c :: t) then some ([], (c :: t).drop 6)
    else if c == '\n' then none
    else
      match locCapture t with
      | some (cap, rest) => some (c :: cap, rest)
      | none => none

/-- re.findall of the loc pattern, as extract_sitemap_urls runs it: scan
    left to right, at each opening tag take the capture and resume after
    the match, else advance one character. Fuel is the text length. -/
def locScanF : Nat → Str → List Str
  | 0, _ => []
  | _ + 1, [] => []
  | fuel + 1, c :: t =>
    if isPrefB (str "<loc>") (c :: t) then
      match locCapture ((c :: t).drop 5) with
      | some (cap, rest) => cap :: locScanF fuel rest
      | none => locScanF fuel t
    else locScanF fuel t

/-- promo_discover.extract_sitemap_urls: the findall, keeping nonempty
    entries, each stripped. -/
def extract_sitemap_urls (xml : Str) : List Str :=
  ((locScanF xml.length xml).filter (fun u => u ≠ [])).map pyStrip

/-- The per-file body of fetch_sitemap_hits: on a fetch below status 400,
    the first smCap location entries that are same-domain and
    keyword-matching, fragments stripped; a failed fetch (none) or an error
    status contributes nothing. The Python set is modelled as a list and
    deduplicated at the final sorting stage. -/
def sitemap_one (getResp : Str → Option (Nat × Str)) (smCap : Nat) (base sm : Str) :
    List Str :=
  match getResp (pyUrljoin base sm) with
  | none => []
  | some (code, text) =>
    if 400 ≤ code then []
    else
      (((extract_sitemap_urls text).take smCap).filter
        (fun u => same_domain base u && kwSearch u)).map splitHash

/-- promo_discover.fetch_sitemap_hits over the two well-known sitemap
    paths. -/
def fetch_sitemap_hits (getResp : Str → Option (Nat × Str)) (smCap : Nat) (base : Str) :
    List Str :=
  sitemap_one getResp smCap base (str "/sitemap.xml") ++
    sitemap_one getResp smCap base (str "/sitemap_index.xml")

/-- Inside a href attribute value: the non-greedy newline-free capture up to
    the first single or double quote, with the text after it. -/
def hrefCapture : Str → Option (Str × Str)
  | [] => none
  | c :: t =>
    if c == '"' || c == '\x27' then some ([], t)
    else if c == '\n' then none
    else
      match hrefCapture t with
      | some (cap, rest) => some (c :: cap, rest)
      | none => none

/-- The href= attribute opener of the homepage pattern, case-insensitive. -/
def isHrefAt (s : Str) : Bool :=
  match s with
  | c1 :: c2 :: c3 :: c4 :: c5 :: _ =>
    (c1 == 'h' || c1 == 'H') && (c2 == 'r' || c2 == 'R') && (c3 == 'e' || c3 == 'E') &&
      (c4 == 'f' || c4 == 'F') && c5 == '='
  | _ => false

/-- re.findall of the href pattern of fetch_homepage_hits: at each href=
    followed by a quote, capture up to the next quote and resume after it;
    otherwise advance one character. Fuel is the text length. -/
def hrefScanF : Nat → Str → List Str
  | 0, _ => []
  | _ + 1, [] => []
  | fuel + 1, c :: t =>
    if isHrefAt (c :: t) then
      match (c :: t).drop 5 with
      | q :: rest =>
        if q == '"' || q == '\x27' then
          match hrefCapture rest with
          | some (cap, rest2) => cap :: hrefScanF fuel rest2
          | none => hrefScanF fuel t
        else hrefScanF fuel t
      | [] => hrefScanF fuel t
    else hrefScanF fuel t

/-- The href attribute values found on a page. -/
def extractHrefs (html : Str) : List Str := hrefScanF html.length html

/-- A hyperlink target the homepage loop skips before resolving it: empty,
    or a mailto:, tel: or javascript: link. -/
def skipHref (h : Str) : Bool :=
  h = [] || startsWithStr (str "mailto:") h || startsWithStr (str "tel:") h ||
    startsWithStr (str "javascript:") h

/-- The homepage-loop body of fetch_homepage_hits: a skipped href
    contributes nothing; a href on which urljoin raises — the urlsplit
    ValueError on a mismatched-bracket reference — ends the loop early,
    because the try of the source wraps the whole loop and keeps the hits
    already added; any other href is resolved against the base, stripped of
    its fragment, and kept when same-domain and keyword-matching. -/
def homepage_collect (base : Str) : List Str → List Str
  | [] => []
  | h :: rest =>
    if skipHref h then homepage_collect base rest
    else if badBrackets (netlocRaw h) then []
    else
      let u := splitHash (pyUrljoin base h)
      if same_domain base u && kwSearch u then u :: homepage_collect base rest
      else homepage_collect base rest

/-- promo_discover.fetch_homepage_hits: on a homepage fetch below status
    400, process the first 1500 extracted hrefs; a failed fetch or an error
    status contributes nothing. -/
def fetch_homepage_hits (getResp : Str → Option (Nat × Str)) (base : Str) : List Str :=
  match getResp base with
  | none => []
  | some (code, text) =>
    if 400 ≤ code then []
    else homepage_collect base ((extractHrefs text).take 1500)

/-- The path-probe producer of discover_for_site: each common path joined to
    the base, kept when the HEAD oracle answers with a status below 400
    (head_ok; its try/except turns a network failure into false). -/
def probe_hits (headOk : Str → Bool) (base : Str) : List Str :=
  (COMMON_PATHS.map (pyUrljoin base)).filter headOk

/-- promo_discover.discover_for_site: normalize the website (a urlparse
    error propagates, there is no try around it in the source), return no
    candidates for an empty base, otherwise unite the three producers,
    deduplicate (the Python set), sort lexicographically and truncate to the
    per-store cap. -/
def discover_for_site (headOk : Str → Bool) (getResp : Str → Option (Nat × Str))
    (smCap cap : Nat) (website : Str) : Except Unit (List Str) :=
  match normalize_base website with
  | .error e => .error e
  | .ok base =>
    if base = [] then .ok []
    else
      let found := probe_hits headOk base ++ fetch_sitemap_hits getResp smCap base ++
        fetch_homepage_hits getResp base
      .ok ((found.dedup.insertionSort strLe).take cap)

/-- The url matches the given SCORE_TABLE keyword, and no other table
    keyword, case-insensitively. -/
def matchesOnly (u kw : Str) : Prop :=
  containsSub kw (toLowerStr u) = true ∧
    ∀ p ∈ SCORE_TABLE, p.1 ≠ kw → containsSub p.1 (toLowerStr u) = false

/-- The lowercased netloc of a url, when it parses. -/
def netlocLow (s : Str) : Option Str :=
  match pyUrlparse s with
  | .error _ => none
  | .ok p => some (toLowerStr p.netloc)

theorem priceScanF_mem :
    ∀ (fuel : Nat) (s : Str) (g : Str), g ∈ priceScanF fuel s → g = ['€'] ∨ g = ['£'] := by
  intro fuel
  induction fuel with
  | zero => intro s g h; simp [priceScanF] at h
  | succ n ih =>
    intro s g h
    cases s with
    | nil => simp [priceScanF] at h
    | cons c t =>
      simp only [priceScanF] at h
      by_cases hc : (c == '€' || c == '£') = true
      · rw [if_pos hc] at h
        cases hm : priceMatchTail t with
        | some rest =>
          rw [hm] at h
          rcases List.mem_cons.mp h with h1 | h1
          · have hc2 : c = '€' ∨ c = '£' := by simpa using hc
            rcases hc2 with h2 | h2
            · left; rw [h1, h2]
            · right; rw [h1, h2]
          · exact ih rest g h1
        | none => rw [hm] at h; exact ih t g h
      · rw [if_neg hc] at h; exact ih t g h

theorem extract_prices_nil (t : Str) : extract_prices t = [] := by
  have h : (priceFindall t).filterMap (fun p => pyFloatDigits (keepDigitsDots p)) = [] := by
    rw [List.filterMap_eq_nil_iff]
    intro p hp
    rcases priceScanF_mem _ _ _ hp with h | h <;> rw [h] <;> rfl
  simp [extract_prices, h]

/-- Claim C1, a code bug: on the worked example text of the spec the price
    scan returns no prices at all — PRICE_RE spells its currency-sign
    alternation (€|£) as a capturing group, so re.findall returns only the
    currency signs, and every float conversion then fails on the stripped
    empty string — hence the price list is empty and old_price and
    new_price both stay null, against the claimed [15.50, 20.00], 20.00 and
    15.50. Only discount_percent = 22 comes out as claimed. The last
    conjunct shows the price scan is empty on every text. -/
theorem extract_prices_example_refuted :
    extract_prices (str "Was €20.00 Now €15.50, save 22%") = [] ∧
    assemble_prices (extract_prices (str "Was €20.00 Now €15.50, save 22%")) = (none, none) ∧
    extract_discount (str "Was €20.00 Now €15.50, save 22%") = some 22 ∧
    priceFindall (str "Was €20.00 Now €15.50, save 22%") = [['€'], ['€']] ∧
    (∀ t : Str, extract_prices t = []) :=
  ⟨by decide, by decide, by decide, by decide, extract_prices_nil⟩

theorem le_foldl_max (x : ℚ) (xs : List ℚ) : x ≤ xs.foldl max x := by
  induction xs generalizing x with
  | nil => simp
  | cons y ys ih => exact le_trans (le_max_left x y) (ih (max x y))

theorem mem_le_foldl_max (x : ℚ) (xs : List ℚ) : ∀ y ∈ xs, y ≤ xs.foldl max x := by
  induction xs generalizing x with
  | nil => intro y hy; simp at hy
  | cons z zs ih =>
    intro y hy
    rcases List.mem_cons.mp hy with h | h
    · rw [h]; exact le_trans (le_max_right x z) (le_foldl_max _ _)
    · exact ih (max x z) y h

theorem foldl_max_mem (x : ℚ) (xs : List ℚ) : xs.foldl max x ∈ x :: xs := by
  induction xs generalizing x with
  | nil => simp
  | cons z zs ih =>
    rw [List.foldl_cons]
    rcases List.mem_cons.mp (ih (max x z)) with h1 | h1
    · rw [h1]
      rcases max_choice x z with h2 | h2 <;> rw [h2]
      · exact List.mem_cons_self x (z :: zs)
      · exact List.mem_cons_of_mem x (List.mem_cons_self z zs)
    · exact List.mem_cons_of_mem x (List.mem_cons_of_mem z h1)

theorem foldl_min_le (x : ℚ) (xs : List ℚ) : xs.foldl min x ≤ x := by
  induction xs generalizing x with
  | nil => simp
  | cons y ys ih => exact le_trans (ih (min x y)) (min_le_left x y)

theorem foldl_min_le_mem (x : ℚ) (xs : List ℚ) : ∀ y ∈ xs, xs.foldl min x ≤ y := by
  induction xs generalizing x with
  | nil => intro y hy; simp at hy
  | cons z zs ih =>
    intro y hy
    rw [List.foldl_cons]
    rcases List.mem_cons.mp hy with h | h
    · rw [h]; exact le_trans (foldl_min_le (min x z) zs) (min_le_right x z)
    · exact ih (min x z) y h

theorem foldl_min_mem (x : ℚ) (xs : List ℚ) : xs.foldl min x ∈ x :: xs := by
  induction xs generalizing x with
  | nil => simp
  | cons z zs ih =>
    rw [List.foldl_cons]
    rcases List.mem_cons.mp (ih (min x z)) with h1 | h1
    · rw [h1]
      rcases min_choice x z with h2 | h2 <;> rw [h2]
      · exact List.mem_cons_self x (z :: zs)
      · exact List.mem_cons_of_mem x (List.mem_cons_self z zs)
    · exact List.mem_cons_of_mem x (List.mem_cons_of_mem z h1)

theorem pyMax_spec {l : List ℚ} (h : l ≠ []) :
    ∃ m, pyMax l = some m ∧ m ∈ l ∧ ∀ y ∈ l, y ≤ m := by
  cases l with
  | nil => exact absurd rfl h
  | cons x xs =>
    refine ⟨xs.foldl max x, rfl, foldl_max_mem x xs, ?_⟩
    intro y hy
    rcases List.mem_cons.mp hy with h1 | h1
    · rw [h1]; exact le_foldl_max x xs
    · exact mem_le_foldl_max x xs y h1

theorem pyMin_spec {l : List ℚ} (h : l ≠ []) :
    ∃ n, pyMin l = some n ∧ n ∈ l ∧ ∀ y ∈ l, n ≤ y := by
  cases l with
  | nil => exact absurd rfl h
  | cons x xs =>
    refine ⟨xs.foldl min x, rfl, foldl_min_mem x xs, ?_⟩
    intro y hy
    rcases List.mem_cons.mp hy with h1 | h1
    · rw [h1]; exact foldl_min_le x xs
    · exact foldl_min_le_mem x xs y h1

/-- Claim C4: for the extracted price list handed to the assembly step of
    extract_deals.main — such lists are duplicate-free by construction —
    at least two distinct values give old_price = max and new_price = min,
    so old_price is at least new_price; a single value becomes new_price
    with old_price null; the empty list leaves both null. -/
theorem assemble_prices_spec (prices : List ℚ) :
    (2 ≤ prices.length → prices.Nodup →
      ∃ m n, assemble_prices prices = (some m, some n) ∧
        m ∈ prices ∧ (∀ y ∈ prices, y ≤ m) ∧
        n ∈ prices ∧ (∀ y ∈ prices, n ≤ y) ∧ n ≤ m) ∧
    (∀ p : ℚ, prices = [p] → assemble_prices prices = (none, some p)) ∧
    (prices = [] → assemble_prices prices = (none, none)) := by
  refine ⟨?_, ?_, ?_⟩
  · intro h2 _hnd
    have hne : prices ≠ [] := by
      intro h; rw [h] at h2; simp at h2
    obtain ⟨m, hm, hmm, hmb⟩ := pyMax_spec hne
    obtain ⟨n, hn, hnm, hnb⟩ := pyMin_spec hne
    refine ⟨m, n, ?_, hmm, hmb, hnm, hnb, hnb m hmm⟩
    simp [assemble_prices, if_pos h2, hm, hn]
  · intro p hp; rw [hp]; rfl
  · intro hp; rw [hp]; rfl

/-- Witness for C4 at the concrete lists [3, 20], [3] and []. -/
theorem assemble_prices_spec_witness :
    (∃ m n, assemble_prices [(3 : ℚ), 20] = (some m, some n) ∧
      m ∈ [(3 : ℚ), 20] ∧ (∀ y ∈ [(3 : ℚ), 20], y ≤ m) ∧
      n ∈ [(3 : ℚ), 20] ∧ (∀ y ∈ [(3 : ℚ), 20], n ≤ y) ∧ n ≤ m) ∧
    assemble_prices [(3 : ℚ)] = (none, some 3) ∧
    assemble_prices ([] : List ℚ) = (none, none) :=
  ⟨(assemble_prices_spec [3, 20]).1 (by decide) (by decide),
   (assemble_prices_spec [3]).2.1 3 rfl,
   (assemble_prices_spec []).2.2 rfl⟩

theorem score_foldl (u : Str) :
    ∀ (table : List (Str × Nat)) (init : Nat),
      table.foldl (fun score kp => if containsSub kp.1 u then score + kp.2 else score) init =
        init + ((table.filter (fun kp => containsSub kp.1 u)).map Prod.snd).sum := by
  intro table
  induction table with
  | nil => intro init; simp
  | cons kp rest ih =>
    intro init
    by_cases h : containsSub kp.1 u = true
    · simp only [List.foldl_cons, List.filter_cons, h, if_true, List.map_cons, List.sum_cons,
        ih]
      omega
    · simp only [List.foldl_cons, List.filter_cons, h, if_false, Bool.false_eq_true, ih]

/-- Claim C8: priority_score is the sum of the weights of the table
    keywords occurring case-insensitively in the url, several matches
    accumulating; hence a url containing weekly and no other keyword
    scores 6 while one containing outlet alone scores 2, so the former is
    at least the latter. -/
theorem priority_score_spec :
    (∀ u : Str, priority_score u =
      ((SCORE_TABLE.filter (fun kp => containsSub kp.1 (toLowerStr u))).map Prod.snd).sum) ∧
    (∀ u1 u2 : Str, matchesOnly u1 (str "weekly") → matchesOnly u2 (str "outlet") →
      priority_score u1 = 6 ∧ priority_score u2 = 2 ∧
        priority_score u2 ≤ priority_score u1) := by
  have hs : ∀ u : Str, priority_score u =
      ((SCORE_TABLE.filter (fun kp => containsSub kp.1 (toLowerStr u))).map Prod.snd).sum := by
    intro u
    unfold priority_score
    rw [score_foldl (toLowerStr u) SCORE_TABLE 0, Nat.zero_add]
  refine ⟨hs, ?_⟩
  intro u1 u2 h1 h2
  have e1 : priority_score u1 = 6 := by
    rw [hs u1]
    have k2 : containsSub (str "leaflet") (toLowerStr u1) = false :=
      h1.2 (str "leaflet", 6) (by decide) (by decide)
    have k3 : containsSub (str "catalogue") (toLowerStr u1) = false :=
      h1.2 (str "catalogue", 6) (by decide) (by decide)
    have k4 : containsSub (str "catalog") (toLowerStr u1) = false :=
      h1.2 (str "catalog", 5) (by decide) (by decide)
    have k5 : containsSub (str "offers") (toLowerStr u1) = false :=
      h1.2 (str "offers", 5) (by decide) (by decide)
    have k6 : containsSub (str "promotions") (toLowerStr u1) = false :=
      h1.2 (str "promotions", 5) (by decide) (by decide)
    have k7 : containsSub (str "deals") (toLowerStr u1) = false :=
      h1.2 (str "deals", 5) (by decide) (by decide)
    have k8 : containsSub (str "sale") (toLowerStr u1) = false :=
      h1.2 (str "sale", 3) (by decide) (by decide)
    have k9 : containsSub (str "clearance") (toLowerStr u1) = false :=
      h1.2 (str "clearance", 3) (by decide) (by decide)
    have k10 : containsSub (str "special") (toLowerStr u1) = false :=
      h1.2 (str "special", 2) (by decide) (by decide)
    have k11 : containsSub (str "outlet") (toLowerStr u1) = false :=
      h1.2 (str "outlet", 2) (by decide) (by decide)
    simp [SCORE_TABLE, List.filter_cons, h1.1, k2, k3, k4, k5, k6, k7, k8, k9, k10, k11]
  have e2 : priority_score u2 = 2 := by
    rw [hs u2]
    have k1 : containsSub (str "weekly") (toLowerStr u2) = false :=
      h2.2 (str "weekly", 6) (by decide) (by decide)
    have k2 : containsSub (str "leaflet") (toLowerStr u2) = false :=
      h2.2 (str "leaflet", 6) (by decide) (by decide)
    have k3 : containsSub (str "catalogue") (toLowerStr u2) = false :=
      h2.2 (str "catalogue", 6) (by decide) (by decide)
    have k4 : containsSub (str "catalog") (toLowerStr u2) = false :=
      h2.2 (str "catalog", 5) (by decide) (by decide)
    have k5 : containsSub (str "offers") (toLowerStr u2) = false :=
      h2.2 (str "offers", 5) (by decide) (by decide)
    have k6 : containsSub (str "promotions") (toLowerStr u2) = false :=
      h2.2 (str "promotions", 5) (by decide) (by decide)
    have k7 : containsSub (str "deals") (toLowerStr u2) = false :=
      h2.2 (str "deals", 5) (by decide) (by decide)
    have k8 : containsSub (str "sale") (toLowerStr u2) = false :=
      h2.2 (str "sale", 3) (by decide) (by decide)
    have k9 : containsSub (str "clearance") (toLowerStr u2) = false :=
      h2.2 (str "clearance", 3) (by decide) (by decide)
    have k10 : containsSub (str "special") (toLowerStr u2) = false :=
      h2.2 (str "special", 2) (by decide) (by decide)
    simp [SCORE_TABLE, List.filter_cons, h2.1, k1, k2, k3, k4, k5, k6, k7, k8, k9, k10]
  exact ⟨e1, e2, by rw [e1, e2]; norm_num⟩

/-- Witness for C8 at two concrete urls, one containing weekly alone, one
    containing outlet alone. -/
theorem priority_score_spec_witness :
    priority_score (str "https://x.ie/weekly") = 6 ∧
    priority_score (str "https://x.ie/outlet") = 2 ∧
    priority_score (str "https://x.ie/outlet") ≤ priority_score (str "https://x.ie/weekly") :=
  priority_score_spec.2 (str "https://x.ie/weekly") (str "https://x.ie/outlet")
    (by constructor <;> decide) (by constructor <;> decide)

theorem range_map_shift {β : Type} (f : Nat → β) (n a : Nat) :
    (List.range (n + 1)).map (fun i => f (a + i)) =
      f a :: (List.range n).map (fun i => f (a + 1 + i)) := by
  rw [List.range_succ_eq_map, List.map_cons, List.map_map, Nat.add_zero]
  congr 1
  apply List.map_congr_left
  intro i _hi
  show f (a + (i + 1)) = f (a + 1 + i)
  congr 1
  omega

theorem retryFrom_all_fail {E R : Type} (respond : Nat → Str → Except E R) (pick : Nat → Str)
    (jitter : Nat → ℚ) (err : Nat → E) :
    ∀ (rem a : Nat) (last : Option E),
      (∀ i, i < rem → respond (a + i) (pick (a + i)) = .error (err (a + i))) →
      retryFrom respond pick jitter a rem last =
        ⟨.error (if rem = 0 then last else some (err (a + rem - 1))),
         (List.range rem).map (fun i => pick (a + i)),
         (List.range rem).map (fun i => (2 : ℚ) ^ (a + i) + jitter (a + i))⟩ := by
  intro rem
  induction rem with
  | zero => intro a last _h; simp [retryFrom]
  | succ n ih =>
    intro a last h
    have h0 : respond a (pick a) = .error (err a) := by
      have h1 := h 0 (Nat.succ_pos n)
      simpa using h1
    have hrest : ∀ i, i < n →
        respond (a + 1 + i) (pick (a + 1 + i)) = .error (err (a + 1 + i)) := by
      intro i hi
      have h1 := h (i + 1) (by omega)
      rwa [show a + (i + 1) = a + 1 + i by omega] at h1
    simp only [retryFrom, h0]
    rw [ih (a + 1) (some (err a)) hrest]
    simp only [RetryTrace.mk.injEq]
    refine ⟨?_, ?_, ?_⟩
    · rcases n with _ | m
      · simp
      · have e1 : a + 1 + (m + 1) - 1 = a + (m + 1 + 1) - 1 := by omega
        simp [e1]
    · exact (range_map_shift (fun i => pick i) n a).symm
    · exact (range_map_shift (fun i => (2 : ℚ) ^ i + jitter i) n a).symm

theorem retryFrom_success {E R : Type} (respond : Nat → Str → Except E R) (pick : Nat → Str)
    (jitter : Nat → ℚ) (r : R) :
    ∀ (k rem a : Nat) (last : Option E),
      k < rem →
      (∀ i, i < k → ∃ e, respond (a + i) (pick (a + i)) = .error e) →
      respond (a + k) (pick (a + k)) = .ok r →
      retryFrom respond pick jitter a rem last =
        ⟨.ok r, (List.range (k + 1)).map (fun i => pick (a + i)),
         (List.range k).map (fun i => (2 : ℚ) ^ (a + i) + jitter (a + i))⟩ := by
  intro k
  induction k with
  | zero =>
    intro rem a last hlt _hf hok
    cases rem with
    | zero => omega
    | succ m =>
      have h0 : respond a (pick a) = .ok r := by simpa using hok
      simp only [retryFrom, h0]
      rw [show List.range 1 = [0] from rfl]
      simp
  | succ j ih =>
    intro rem a last hlt hf hok
    cases rem with
    | zero => omega
    | succ m =>
      obtain ⟨e, he⟩ := hf 0 (Nat.succ_pos j)
      have he2 : respond a (pick a) = .error e := by simpa using he
      simp only [retryFrom, he2]
      have hf2 : ∀ i, i < j → ∃ e2, respond (a + 1 + i) (pick (a + 1 + i)) = .error e2 := by
        intro i hi
        obtain ⟨e2, he3⟩ := hf (i + 1) (by omega)
        exact ⟨e2, by rwa [show a + (i + 1) = a + 1 + i by omega] at he3⟩
      have hok2 : respond (a + 1 + j) (pick (a + 1 + j)) = .ok r := by
        rwa [show a + (j + 1) = a + 1 + j by omega] at hok
      rw [ih m (a + 1) (some e) (by omega) hf2 hok2]
      simp only [RetryTrace.mk.injEq]
      refine ⟨trivial, ?_, ?_⟩
      · exact (range_map_shift (fun i => pick i) (j + 1) a).symm
      · exact (range_map_shift (fun i => (2 : ℚ) ^ i + jitter i) j a).symm

theorem retryFrom_calls_pick {E R : Type} (respond : Nat → Str → Except E R) (pick : Nat → Str)
    (jitter : Nat → ℚ) :
    ∀ (rem a : Nat) (last : Option E) (u : Str),
      u ∈ (retryFrom respond pick jitter a rem last).calls → ∃ i, u = pick i := by
  intro rem
  induction rem with
  | zero => intro a last u h; simp [retryFrom] at h
  | succ n ih =>
    intro a last u h
    simp only [retryFrom] at h
    cases hr : respond a (pick a) with
    | ok r =>
      rw [hr] at h
      simp at h
      exact ⟨a, h⟩
    | error e =>
      rw [hr] at h
      simp only [List.mem_cons] at h
      rcases h with h | h
      · exact ⟨a, h⟩
      · exact ih (a + 1) (some e) u h

/-- Claim C6: the retry controller of osm_discover.overpass_post, with the
    endpoint choice of random.choice and the jitter of random.random
    modelled as injected streams, per the injectable-randomness design note
    of the spec. Attempt i posts to pick(i) — an arbitrary stream, so the
    endpoint choice is independent across attempts and repeats are
    possible. A success at attempt k returns immediately, after the waits
    2^0 + jitter(0) .. 2^(k-1) + jitter(k-1) slept after the k failures
    before it; when all tries attempts fail, the last observed error is
    raised, after all tries attempts were posted and all waits slept; and
    every url ever posted comes from the pick stream, hence lies in
    OVERPASS_ENDPOINTS whenever the stream does. -/
theorem overpass_post_spec {E R : Type} (respond : Nat → Str → Except E R) (pick : Nat → Str)
    (jitter : Nat → ℚ) (tries : Nat) :
    (∀ (k : Nat) (r : R), k < tries →
      (∀ i, i < k → ∃ e, respond i (pick i) = .error e) →
      respond k (pick k) = .ok r →
      overpass_post respond pick jitter tries =
        ⟨.ok r, (List.range (k + 1)).map pick,
         (List.range k).map (fun i => (2 : ℚ) ^ i + jitter i)⟩) ∧
    (∀ err : Nat → E,
      (∀ i, i < tries → respond i (pick i) = .error (err i)) → 1 ≤ tries →
      overpass_post respond pick jitter tries =
        ⟨.error (some (err (tries - 1))), (List.range tries).map pick,
         (List.range tries).map (fun i => (2 : ℚ) ^ i + jitter i)⟩) ∧
    ((∀ i, pick i ∈ OVERPASS_ENDPOINTS) →
      ∀ u ∈ (overpass_post respond pick jitter tries).calls, u ∈ OVERPASS_ENDPOINTS) := by
  refine ⟨?_, ?_, ?_⟩
  · intro k r hk hf hok
    have h := retryFrom_success respond pick jitter r k tries 0 none hk
      (by intro i hi; simpa using hf i hi) (by simpa using hok)
    rw [overpass_post, h]
    simp only [RetryTrace.mk.injEq]
    refine ⟨trivial, by apply List.map_congr_left; intro i _; simp,
      by apply List.map_congr_left; intro i _; simp⟩
  · intro err hfail htries
    have h := retryFrom_all_fail respond pick jitter err tries 0 none
      (by intro i hi; simpa using hfail i hi)
    rw [overpass_post, h]
    simp only [RetryTrace.mk.injEq]
    refine ⟨?_, by apply List.map_congr_left; intro i _; simp,
      by apply List.map_congr_left; intro i _; simp⟩
    rw [if_neg (by omega)]
    simp
  · intro hp u hu
    obtain ⟨i, hi⟩ := retryFrom_calls_pick respond pick jitter tries 0 none u hu
    rw [hi]
    exact hp i

/-- Witness for C6: three endpoints all answering 500 and six tries — the
    last error is raised only after the sixth attempt, with the six
    exponentially growing waits on record. -/
theorem overpass_post_spec_witness :
    overpass_post (fun _ _ => (Except.error 500 : Except Nat Unit))
        (fun i => OVERPASS_ENDPOINTS.getD (i % 3) []) (fun _ => 0) 6 =
      ⟨.error (some 500),
       (List.range 6).map (fun i => OVERPASS_ENDPOINTS.getD (i % 3) []),
       (List.range 6).map (fun i => (2 : ℚ) ^ i + 0)⟩ :=
  (overpass_post_spec (fun _ _ => (Except.error 500 : Except Nat Unit))
      (fun i => OVERPASS_ENDPOINTS.getD (i % 3) []) (fun _ => 0) 6).2.1
    (fun _ => 500) (fun _ _ => rfl) (by omega)

theorem homepage_collect_filter (base : Str) :
    ∀ l : List Str,
      homepage_collect base l = homepage_collect base (l.filter (fun h => !skipHref h)) := by
  intro l
  induction l with
  | nil => rfl
  | cons h rest ih =>
    rw [List.filter_cons]
    by_cases hs : skipHref h = true
    · have e1 : homepage_collect base (h :: rest) = homepage_collect base rest := by
        simp [homepage_collect, hs]
      rw [e1, if_neg (by simp [hs]), ih]
    · have hs2 : skipHref h = false := by simpa using hs
      rw [if_pos (by simp [hs2])]
      simp only [homepage_collect, hs2, Bool.false_eq_true, if_false]
      rw [ih]

/-- Claim C10: the homepage scan never produces a candidate from an empty
    href or one starting with mailto:, tel: or javascript: — processing a
    href list is the same as processing it with every such href removed up
    front, before any resolution, fragment strip or keyword filtering; and
    the producer itself runs exactly this loop on the first 1500 hrefs
    extracted from a successfully fetched homepage. -/
theorem fetch_homepage_skips (base : Str) :
    (∀ l : List Str,
      homepage_collect base l = homepage_collect base (l.filter (fun h => !skipHref h))) ∧
    (∀ (getResp : Str → Option (Nat × Str)) (code : Nat) (text : Str),
      getResp base = some (code, text) → code < 400 →
      fetch_homepage_hits getResp base =
        homepage_collect base
          (((extractHrefs text).take 1500).filter (fun h => !skipHref h))) := by
  refine ⟨homepage_collect_filter base, ?_⟩
  intro getResp code text hresp hcode
  simp only [fetch_homepage_hits, hresp]
  rw [if_neg (by omega)]
  exact homepage_collect_filter base _

/-- Witness for C10 at a concrete homepage holding a mailto link, an empty
    link, and one good promo link. -/
theorem fetch_homepage_skips_witness :
    fetch_homepage_hits
        (fun u => if u = str "https://x.ie" then
          some (200, str "<a href=\x22mailto:a@x.ie\x22><a href=\x22\x22><a href=\x22/deals#x\x22>")
          else none)
        (str "https://x.ie") =
      homepage_collect (str "https://x.ie")
        (((extractHrefs
            (str "<a href=\x22mailto:a@x.ie\x22><a href=\x22\x22><a href=\x22/deals#x\x22>")).take
              1500).filter (fun h => !skipHref h)) :=
  (fetch_homepage_skips (str "https://x.ie")).2 _ 200 _ rfl (by omega)

theorem dropDupFirst_spec :
    ∀ (rows : List PromoRow) (seen : List Str),
      ((dropDupFirst seen rows).map (fun r => r.promo_url)).Nodup ∧
      (∀ r ∈ dropDupFirst seen rows, r.promo_url ∉ seen) := by
  intro rows
  induction rows with
  | nil =>
    intro seen
    exact ⟨by simp [dropDupFirst], by intro r hr; simp [dropDupFirst] at hr⟩
  | cons x rest ih =>
    intro seen
    by_cases hx : x.promo_url ∈ seen
    · rw [show dropDupFirst seen (x :: rest) = dropDupFirst seen rest from by
        simp [dropDupFirst, hx]]
      exact ih seen
    · rw [show dropDupFirst seen (x :: rest) = x :: dropDupFirst (x.promo_url :: seen) rest from
        by simp [dropDupFirst, hx]]
      obtain ⟨ihn, ihs⟩ := ih (x.promo_url :: seen)
      constructor
      · rw [List.map_cons, List.nodup_cons]
        refine ⟨?_, ihn⟩
        intro hmem
        rcases List.mem_map.mp hmem with ⟨r, hr, hru⟩
        exact ihs r hr (by rw [hru]; exact List.mem_cons_self _ _)
      · intro r hr
        rcases List.mem_cons.mp hr with h | h
        · rw [h]; exact hx
        · intro hc
          exact ihs r h (List.mem_cons_of_mem _ hc)

theorem mem_dropDupFirst :
    ∀ (rows : List PromoRow) (seen : List Str) (r : PromoRow),
      r ∈ dropDupFirst seen rows ↔
        (r.promo_url ∉ seen ∧
          rows.find? (fun x => x.promo_url == r.promo_url) = some r) := by
  intro rows
  induction rows with
  | nil => intro seen r; simp [dropDupFirst]
  | cons x rest ih =>
    intro seen r
    by_cases hx : x.promo_url ∈ seen
    · rw [show dropDupFirst seen (x :: rest) = dropDupFirst seen rest from by
        simp [dropDupFirst, hx]]
      rw [ih seen r]
      constructor
      · rintro ⟨hns, hf⟩
        have hne : (x.promo_url == r.promo_url) = false := by
          rw [beq_eq_false_iff_ne]
          intro he
          exact hns (he ▸ hx)
        exact ⟨hns, by simpa [List.find?_cons, hne] using hf⟩
      · rintro ⟨hns, hf⟩
        by_cases hbe : (x.promo_url == r.promo_url) = true
        · simp only [List.find?_cons, hbe] at hf
          have hxr : x = r := Option.some.inj hf
          have hrs : r.promo_url ∈ seen := by rw [← hxr]; exact hx
          exact absurd hrs hns
        · have hbe2 : (x.promo_url == r.promo_url) = false := by simpa using hbe
          simp only [List.find?_cons, hbe2] at hf
          exact ⟨hns, hf⟩
    · rw [show dropDupFirst seen (x :: rest) = x :: dropDupFirst (x.promo_url :: seen) rest from
        by simp [dropDupFirst, hx]]
      constructor
      · intro hr
        rcases List.mem_cons.mp hr with h | h
        · refine ⟨by rw [h]; exact hx, ?_⟩
          rw [h]
          simp [List.find?_cons]
        · obtain ⟨hns, hf⟩ := (ih (x.promo_url :: seen) r).mp h
          have hnex : (x.promo_url == r.promo_url) = false := by
            rw [beq_eq_false_iff_ne]
            intro he
            exact hns (by rw [← he]; exact List.mem_cons_self _ _)
          refine ⟨fun hc => hns (List.mem_cons_of_mem _ hc), ?_⟩
          simp only [List.find?_cons, hnex]
          exact hf
      · rintro ⟨hns, hf⟩
        by_cases hbe : (x.promo_url == r.promo_url) = true
        · simp only [List.find?_cons, hbe] at hf
          have hxr : x = r := Option.some.inj hf
          rw [← hxr]
          exact List.mem_cons_self _ _
        · have hbe2 : (x.promo_url == r.promo_url) = false := by simpa using hbe
          simp only [List.find?_cons, hbe2] at hf
          apply List.mem_cons_of_mem
          apply (ih (x.promo_url :: seen) r).mpr
          refine ⟨?_, hf⟩
          intro hc
          rcases List.mem_cons.mp hc with h | h
          · exact absurd (beq_iff_eq.mpr (by rw [h])) hbe
          · exact hns h

/-- Claim C2, amended: the final promo table is unique by promo_url, the
    kept record for a url is the FIRST row seen with it — pandas
    drop_duplicates defaults to keep=first, not the last-seen of the claim
    — and the table is the stable insertion sort of those survivors by
    priority descending, store name ascending (sorted and a permutation of
    the survivor list). The deal rows of extract_deals.main are appended in
    this table's order with no dedup or sort pass of their own, so
    uniqueness of source_url and first-seen-wins carry over to them. -/
theorem promo_dedup_sort_spec (rows : List PromoRow) :
    ((promo_dedup_sort rows).map (fun r => r.promo_url)).Nodup ∧
    (∀ r : PromoRow, r ∈ promo_dedup_sort rows ↔
      rows.find? (fun x => x.promo_url == r.promo_url) = some r) ∧
    (promo_dedup_sort rows).Sorted rowLe ∧
    (promo_dedup_sort rows).Perm (dropDupFirst [] rows) := by
  have hperm : (promo_dedup_sort rows).Perm (dropDupFirst [] rows) :=
    List.perm_insertionSort rowLe _
  refine ⟨?_, ?_, List.sorted_insertionSort rowLe _, hperm⟩
  · exact ((hperm.map (fun r => r.promo_url)).symm).nodup (dropDupFirst_spec rows []).1
  · intro r
    rw [hperm.mem_iff, mem_dropDupFirst rows [] r]
    simp

/-- Counterexample for C2 as stated: two rows share promo_url u; last-seen
    wins would keep the second row (store A), but the pipeline keeps the
    first (store B) and the store-A record is gone. -/
theorem promo_dedup_sort_keeps_first :
    promo_dedup_sort
        [⟨str "B", [], [], [], str "u", 1⟩, ⟨str "A", [], [], [], str "u", 1⟩] =
      [⟨str "B", [], [], [], str "u", 1⟩] ∧
    (⟨str "A", [], [], [], str "u", 1⟩ : PromoRow) ∉
      promo_dedup_sort
        [⟨str "B", [], [], [], str "u", 1⟩, ⟨str "A", [], [], [], str "u", 1⟩] := by
  constructor <;> decide

theorem same_domain_ok_parts (base u : Str) (h : same_domain base u = true) :
    ∃ pb pu, pyUrlparse base = .ok pb ∧ pyUrlparse u = .ok pu ∧
      toLowerStr pb.netloc = toLowerStr pu.netloc := by
  unfold same_domain at h
  cases hb : pyUrlparse base with
  | error e => rw [hb] at h; simp at h
  | ok pb =>
    cases hu : pyUrlparse u with
    | error e => rw [hb, hu] at h; simp at h
    | ok pu =>
      rw [hb, hu] at h
      exact ⟨pb, pu, rfl, rfl, by simpa using h⟩

/-- Claim C9, amended: same_domain compares the full network locations
    (netloc, which includes any port or userinfo) of base and url,
    lowercased — not just the hostnames the claim speaks of — and returns
    true exactly when both parse and the lowercased netlocs agree; a parse
    failure of either argument yields false rather than an exception. -/
theorem same_domain_spec (base u : Str) :
    (same_domain base u = true ↔
      ∃ pb pu, pyUrlparse base = .ok pb ∧ pyUrlparse u = .ok pu ∧
        toLowerStr pb.netloc = toLowerStr pu.netloc) ∧
    (pyUrlparse u = .error () → same_domain base u = false) ∧
    (pyUrlparse base = .error () → same_domain base u = false) := by
  refine ⟨⟨same_domain_ok_parts base u, ?_⟩, ?_, ?_⟩
  · rintro ⟨pb, pu, hb, hu, he⟩
    unfold same_domain
    rw [hb, hu]
    simpa using he
  · intro h
    unfold same_domain
    cases hb : pyUrlparse base with
    | error e => rfl
    | ok pb => rw [h]
  · intro h
    unfold same_domain
    rw [h]

/-- Counterexample for C9 as stated: both urls have hostname a.com — in the
    sense of Python urlparse hostname that the spec wording refers to — yet
    same_domain answers false, because the netlocs differ by the explicit
    port. -/
theorem same_domain_not_hostname :
    same_domain (str "https://a.com") (str "https://a.com:8080/x") = false ∧
    spec_hostname (str "https://a.com") = some (str "a.com") ∧
    spec_hostname (str "https://a.com:8080/x") = some (str "a.com") :=
  ⟨by decide, by decide, by decide⟩

/-- Witness for C9: a parse failure of the url yields false. -/
theorem same_domain_spec_witness :
    same_domain (str "https://a.com") (str "https://[") = false :=
  (same_domain_spec (str "https://a.com") (str "https://[")).2.1 rfl

theorem isPrefB_iff : ∀ p s : Str, isPrefB p s = true ↔ ∃ t, s = p ++ t := by
  intro p
  induction p with
  | nil => intro s; simp [isPrefB]
  | cons a as ih =>
    intro s
    cases s with
    | nil => simp [isPrefB]
    | cons b bs =>
      simp only [isPrefB, Bool.and_eq_true, beq_iff_eq]
      constructor
      · rintro ⟨hab, hp⟩
        obtain ⟨t, ht⟩ := (ih bs).mp hp
        exact ⟨t, by rw [ht, ← hab]; rfl⟩
      · rintro ⟨t, ht⟩
        have h1 : b = a ∧ bs = as ++ t := by
          constructor <;> injection ht with e1 e2
        exact ⟨h1.1.symm, (ih bs).mpr ⟨t, h1.2⟩⟩

theorem isPrefB_append (p t : Str) : isPrefB p (p ++ t) = true :=
  (isPrefB_iff p (p ++ t)).mpr ⟨t, rfl⟩

theorem takeWhile_of_all {p : Char → Bool} :
    ∀ l : Str, (∀ c ∈ l, p c = true) → l.takeWhile p = l := by
  intro l
  induction l with
  | nil => intro _; rfl
  | cons c t ih =>
    intro h
    rw [List.takeWhile_cons, if_pos (h c (List.mem_cons_self _ _)),
      ih (fun d hd => h d (List.mem_cons_of_mem _ hd))]

theorem parse_http (t : Str) :
    pyUrlparse (str "http://" ++ t) =
      (if badBrackets (t.takeWhile notDelim) then .error ()
       else .ok ⟨str "http", t.takeWhile notDelim⟩) := rfl

theorem parse_https (t : Str) :
    pyUrlparse (str "https://" ++ t) =
      (if badBrackets (t.takeWhile notDelim) then .error ()
       else .ok ⟨str "https", t.takeWhile notDelim⟩) := rfl

theorem normalize_base_shape (s r : Str) (hok : normalize_base s = .ok r)
    (hstrip : pyStrip s ≠ []) :
    ∃ host,
      ((r = str "http://" ++ host ∧ startsWithStr (str "http://") (pyStrip s) = true) ∨
        r = str "https://" ++ host) ∧
      (∀ c ∈ host, notDelim c = true) ∧ badBrackets host = false := by
  simp only [normalize_base] at hok
  rw [if_neg hstrip] at hok
  by_cases hpre : (startsWithStr (str "http://") (pyStrip s) ||
      startsWithStr (str "https://") (pyStrip s)) = true
  · rw [if_pos hpre] at hok
    have hpre2 : startsWithStr (str "http://") (pyStrip s) = true ∨
        startsWithStr (str "https://") (pyStrip s) = true := by simpa using hpre
    rcases hpre2 with hp1 | hp1
    · obtain ⟨t, ht⟩ := (isPrefB_iff _ _).mp hp1
      rw [ht, parse_http t] at hok
      by_cases hbad : badBrackets (t.takeWhile notDelim) = true
      · rw [if_pos hbad] at hok; exact absurd hok (by simp)
      · rw [if_neg hbad] at hok
        refine ⟨t.takeWhile notDelim, Or.inl ⟨?_, hp1⟩,
          fun c hc => List.mem_takeWhile_imp hc, by simpa using hbad⟩
        rw [← Except.ok.inj hok]
        rfl
    · obtain ⟨t, ht⟩ := (isPrefB_iff _ _).mp hp1
      rw [ht, parse_https t] at hok
      by_cases hbad : badBrackets (t.takeWhile notDelim) = true
      · rw [if_pos hbad] at hok; exact absurd hok (by simp)
      · rw [if_neg hbad] at hok
        refine ⟨t.takeWhile notDelim, Or.inr ?_,
          fun c hc => List.mem_takeWhile_imp hc, by simpa using hbad⟩
        rw [← Except.ok.inj hok]
        rfl
  · rw [if_neg hpre, parse_https (pyStrip s)] at hok
    by_cases hbad : badBrackets ((pyStrip s).takeWhile notDelim) = true
    · rw [if_pos hbad] at hok; exact absurd hok (by simp)
    · rw [if_neg hbad] at hok
      refine ⟨(pyStrip s).takeWhile notDelim, Or.inr ?_,
        fun c hc => List.mem_takeWhile_imp hc, by simpa using hbad⟩
      rw [← Except.ok.inj hok]
      rfl

/-- Claim C3, amended: normalize_base trims whitespace, returns null
    exactly for input that is empty after the trim — and a null base makes
    the store contribute zero candidates from all three producers —
    prefixes https:// when the input starts with neither http:// nor
    https://, and every non-null result is scheme://host with path and
    query stripped; but it is not exception free: an input whose authority
    has mismatched square brackets makes the unguarded urlparse call raise,
    so that malformed input is a fatal error for the store (see the
    counterexample), not a null. -/
theorem normalize_base_spec (s : Str) :
    (normalize_base s = .ok [] ↔ pyStrip s = []) ∧
    (∀ r, normalize_base s = .ok r → r ≠ [] →
      ∃ host, (r = str "http://" ++ host ∨ r = str "https://" ++ host) ∧
        (∀ c ∈ host, notDelim c = true) ∧ badBrackets host = false) ∧
    (∀ r, normalize_base s = .ok r →
      startsWithStr (str "http://") (pyStrip s) = false →
      startsWithStr (str "https://") (pyStrip s) = false →
      startsWithStr (str "https://") r = true ∨ r = []) ∧
    (∀ (headOk : Str → Bool) (getResp : Str → Option (Nat × Str)) (smCap cap : Nat),
      normalize_base s = .ok [] →
      discover_for_site headOk getResp smCap cap s = .ok []) := by
  refine ⟨⟨?_, ?_⟩, ?_, ?_, ?_⟩
  · intro h
    by_contra hstrip
    obtain ⟨host, hsh, _, _⟩ := normalize_base_shape s [] h hstrip
    have hlen : (0 : Nat) = 7 + host.length := by
      rcases hsh with ⟨he, _⟩ | he
      · have h2 := congrArg List.length he
        simpa [List.length_append] using h2
      · have h2 := congrArg List.length he
        have h3 : (0 : Nat) = 8 + host.length := by
          simpa [List.length_append] using h2
        omega
    omega
  · intro h
    simp only [normalize_base]
    rw [if_pos h]
  · intro r hok hne
    by_cases hstrip : pyStrip s = []
    · exfalso
      apply hne
      have h2 : normalize_base s = .ok [] := by
        simp only [normalize_base]
        rw [if_pos hstrip]
      rw [h2] at hok
      exact (Except.ok.inj hok).symm
    · obtain ⟨host, hsh, hd, hb⟩ := normalize_base_shape s r hok hstrip
      rcases hsh with ⟨he, _⟩ | he
      · exact ⟨host, Or.inl he, hd, hb⟩
      · exact ⟨host, Or.inr he, hd, hb⟩
  · intro r hok hpre1 _hpre2
    by_cases hstrip : pyStrip s = []
    · right
      have h2 : normalize_base s = .ok [] := by
        simp only [normalize_base]
        rw [if_pos hstrip]
      rw [h2] at hok
      exact (Except.ok.inj hok).symm
    · left
      obtain ⟨host, hsh, _, _⟩ := normalize_base_shape s r hok hstrip
      rcases hsh with ⟨_, hflag⟩ | he
      · rw [hpre1] at hflag
        exact absurd hflag (by simp)
      · rw [he]
        exact isPrefB_append _ _
  · intro headOk getResp smCap cap h
    simp [discover_for_site, h]

/-- Counterexample for C3 as stated: on the malformed website input of a
    lone opening bracket the normalizer raises — the urlparse ValueError on
    a mismatched-bracket netloc — and discovery for the store propagates
    the error: a fatal error, not the claimed null with zero candidates. -/
theorem normalize_base_raises :
    normalize_base (str "[") = .error () ∧
    discover_for_site (fun _ => true) (fun _ => none) 3000 25 (str "[") = .error () :=
  ⟨rfl, rfl⟩

/-- Witness for C3 at concrete inputs: whitespace-only input normalizes to
    null and the store yields zero candidates; a url with path and query
    keeps only its scheme and host. -/
theorem normalize_base_spec_witness :
    discover_for_site (fun _ => false) (fun _ => none) 3000 25 (str "  ") = .ok [] ∧
    (∃ host,
      (str "http://Shop.ie" = str "http://" ++ host ∨
        str "http://Shop.ie" = str "https://" ++ host) ∧
      (∀ c ∈ host, notDelim c = true) ∧ badBrackets host = false) :=
  ⟨(normalize_base_spec (str "  ")).2.2.2 _ _ _ _ rfl,
   (normalize_base_spec (str "http://Shop.ie/deals?x=1")).2.1 (str "http://Shop.ie") rfl
     (by decide)⟩

/-- Claim C7: for a store whose base normalizes to a nonempty origin, the
    candidate list is exactly the union of the three producers,
    deduplicated by exact url string, sorted lexicographically — the Python
    sorted() over the set, modelled as the insertion sort under the
    code-point order strLe — and truncated to the per-store cap (the
    MAX_PROMO_URLS_PER_STORE parameter, default 25); hence the output is
    duplicate-free, lexicographically ordered and at most cap long. -/
theorem discover_for_site_spec (headOk : Str → Bool) (getResp : Str → Option (Nat × Str))
    (smCap cap : Nat) (website base : Str)
    (hb : normalize_base website = .ok base) (hne : base ≠ []) :
    discover_for_site headOk getResp smCap cap website =
      .ok ((((probe_hits headOk base ++ fetch_sitemap_hits getResp smCap base ++
        fetch_homepage_hits getResp base).dedup).insertionSort strLe).take cap) ∧
    (∀ res, discover_for_site headOk getResp smCap cap website = .ok res →
      res.Nodup ∧ res.Sorted strLe ∧ res.length ≤ cap) := by
  have he : discover_for_site headOk getResp smCap cap website =
      .ok ((((probe_hits headOk base ++ fetch_sitemap_hits getResp smCap base ++
        fetch_homepage_hits getResp base).dedup).insertionSort strLe).take cap) := by
    simp only [discover_for_site, hb]
    rw [if_neg hne]
  refine ⟨he, ?_⟩
  intro res hres
  rw [he] at hres
  have hres2 := (Except.ok.inj hres).symm
  rw [hres2]
  refine ⟨?_, ?_, ?_⟩
  · exact List.Nodup.sublist (List.take_sublist _ _)
      ((List.perm_insertionSort strLe _).symm.nodup (List.nodup_dedup _))
  · exact List.Pairwise.sublist (List.take_sublist _ _)
      (List.sorted_insertionSort strLe _)
  · exact List.length_take_le _ _

/-- Witness for C7 at a concrete store whose HEAD probe always succeeds. -/
theorem discover_for_site_spec_witness :
    discover_for_site (fun _ => true) (fun _ => none) 3000 25 (str "shopdeals.example") =
      .ok ((((probe_hits (fun _ => true) (str "https://shopdeals.example") ++
        fetch_sitemap_hits (fun _ => none) 3000 (str "https://shopdeals.example") ++
        fetch_homepage_hits (fun _ => none) (str "https://shopdeals.example")).dedup).insertionSort
          strLe).take 25) :=
  (discover_for_site_spec (fun _ => true) (fun _ => none) 3000 25 (str "shopdeals.example")
    (str "https://shopdeals.example") rfl (by decide)).1

theorem takeWhile_takeWhile_of_imp {p q : Char → Bool}
    (himp : ∀ c, p c = true → q c = true) :
    ∀ l : Str, (l.takeWhile q).takeWhile p = l.takeWhile p := by
  intro l
  induction l with
  | nil => rfl
  | cons c t ih =>
    by_cases hq : q c = true
    · rw [List.takeWhile_cons, if_pos hq, List.takeWhile_cons, List.takeWhile_cons]
      by_cases hp : p c = true
      · rw [if_pos hp, if_pos hp, ih]
      · rw [if_neg hp, if_neg hp]
    · have hp : p c = false := by
        by_contra hc
        exact hq (himp c (by simpa using hc))
      rw [List.takeWhile_cons, if_neg hq, List.takeWhile_cons, if_neg (by simp [hp])]
      rfl

theorem takeWhile_append_of_all {q : Char → Bool} :
    ∀ (A B : Str), (∀ c ∈ A, q c = true) → (A ++ B).takeWhile q = A ++ B.takeWhile q := by
  intro A
  induction A with
  | nil => intro B _; rfl
  | cons c A1 ih =>
    intro B h
    rw [List.cons_append, List.takeWhile_cons, if_pos (h c (List.mem_cons_self _ _)),
      ih B (fun d hd => h d (List.mem_cons_of_mem _ hd))]
    rfl

theorem takeWhile_append_of_stop {q : Char → Bool} :
    ∀ (A B : Str), (∃ c ∈ A, q c = false) → (A ++ B).takeWhile q = A.takeWhile q := by
  intro A
  induction A with
  | nil =>
    rintro B ⟨c, hc, _⟩
    simp at hc
  | cons a A1 ih =>
    rintro B ⟨c, hc, hqc⟩
    by_cases hqa : q a = true
    · have hcA : c ∈ A1 := by
        rcases List.mem_cons.mp hc with h | h
        · exfalso; rw [h] at hqc; exact absurd hqa (by simp [hqc])
        · exact h
      rw [List.cons_append, List.takeWhile_cons, if_pos hqa, List.takeWhile_cons, if_pos hqa,
        ih B ⟨c, hcA, hqc⟩]
    · rw [List.cons_append, List.takeWhile_cons, if_neg hqa, List.takeWhile_cons, if_neg hqa]

theorem dropWhile_append_cons {q : Char → Bool} :
    ∀ (A X : Str) (c : Char), (∀ d ∈ A, q d = true) → q c = false →
      (A ++ c :: X).dropWhile q = c :: X := by
  intro A
  induction A with
  | nil =>
    intro X c _ hc
    rw [List.nil_append, List.dropWhile_cons, if_neg (by simp [hc])]
  | cons a A1 ih =>
    intro X c h hc
    rw [List.cons_append, List.dropWhile_cons, if_pos (h a (List.mem_cons_self _ _))]
    exact ih X c (fun d hd => h d (List.mem_cons_of_mem _ hd)) hc

theorem takeWhile_append_cons {q : Char → Bool} :
    ∀ (A X : Str) (c : Char), (∀ d ∈ A, q d = true) → q c = false →
      (A ++ c :: X).takeWhile q = A := by
  intro A
  induction A with
  | nil =>
    intro X c _ hc
    rw [List.nil_append, List.takeWhile_cons, if_neg (by simp [hc])]
  | cons a A1 ih =>
    intro X c h hc
    rw [List.cons_append, List.takeWhile_cons, if_pos (h a (List.mem_cons_self _ _)),
      ih X c (fun d hd => h d (List.mem_cons_of_mem _ hd)) hc]

theorem netlocTail_takeWhile_hash :
    ∀ r : Str, netlocTail (r.takeWhile (fun c => c != '#')) = netlocTail r := by
  intro r
  rcases r with _ | ⟨c1, r1⟩
  · rfl
  rcases r1 with _ | ⟨c2, t⟩
  · by_cases h1 : (c1 != '#') = true
    · rw [List.takeWhile_cons, if_pos h1]; rfl
    · rw [List.takeWhile_cons, if_neg h1]; rfl
  · by_cases h1 : (c1 != '#') = true
    · by_cases h2 : (c2 != '#') = true
      · rw [List.takeWhile_cons, if_pos h1, List.takeWhile_cons, if_pos h2]
        show (if (c1 == '/' && c2 == '/') = true then
            List.takeWhile notDelim (t.takeWhile (fun c => c != '#')) else []) =
          (if (c1 == '/' && c2 == '/') = true then List.takeWhile notDelim t else [])
        by_cases hs : (c1 == '/' && c2 == '/') = true
        · rw [if_pos hs, if_pos hs]
          exact takeWhile_takeWhile_of_imp
            (by
              intro c hc
              simp only [notDelim, Bool.and_eq_true] at hc
              simpa using hc.2) t
        · rw [if_neg hs, if_neg hs]
      · have hc2 : c2 = '#' := by simpa using h2
        rw [List.takeWhile_cons, if_pos h1, List.takeWhile_cons, if_neg h2]
        show ([] : Str) = netlocTail (c1 :: c2 :: t)
        rw [show netlocTail (c1 :: c2 :: t) =
            (if (c1 == '/' && c2 == '/') = true then List.takeWhile notDelim t else [])
          from rfl]
        rw [if_neg (by simp [hc2])]
    · have hc1 : c1 = '#' := by simpa using h1
      rw [List.takeWhile_cons, if_neg h1]
      show ([] : Str) = netlocTail (c1 :: c2 :: t)
      rw [show netlocTail (c1 :: c2 :: t) =
          (if (c1 == '/' && c2 == '/') = true then List.takeWhile notDelim t else [])
        from rfl]
      rw [if_neg (by simp [hc1])]

theorem netlocRaw_splitHash (s : Str) : netlocRaw (splitHash s) = netlocRaw s := by
  have hsplit : splitHash s = s.takeWhile (fun c => c != '#') := rfl
  by_cases hA : '#' ∈ s.takeWhile notColon
  · have hs : s.takeWhile notColon ++ s.dropWhile notColon = s :=
      List.takeWhile_append_dropWhile notColon s
    have h1 : s.takeWhile (fun c => c != '#') =
        (s.takeWhile notColon).takeWhile (fun c => c != '#') := by
      conv_lhs => rw [← hs]
      exact takeWhile_append_of_stop _ _ ⟨'#', hA, by simp⟩
    have hnc : ∀ c ∈ (s.takeWhile notColon).takeWhile (fun c => c != '#'),
        notColon c = true := by
      intro c hc
      exact List.mem_takeWhile_imp ((List.takeWhile_prefix _).sublist.subset hc)
    have h2 : afterScheme ((s.takeWhile notColon).takeWhile (fun c => c != '#')) =
        (s.takeWhile notColon).takeWhile (fun c => c != '#') := by
      unfold afterScheme
      rw [List.dropWhile_eq_nil_iff.mpr hnc]
    have hv : validScheme (s.takeWhile notColon) = false := by
      unfold validScheme
      cases hAeq : s.takeWhile notColon with
      | nil => rfl
      | cons a A1 =>
        rw [hAeq] at hA
        by_cases ha : a.isAlpha = true
        · have hall : ((a :: A1).all isSchemeChar) = false := by
            cases hb : (a :: A1).all isSchemeChar
            · rfl
            · exfalso
              have h3 := List.all_eq_true.mp hb '#' hA
              exact absurd h3 (by decide)
          simp [hall]
        · simp [ha]
    have h3 : afterScheme s = s := by
      unfold afterScheme
      cases hR : s.dropWhile notColon with
      | nil => rfl
      | cons c R1 =>
        show (if validScheme (s.takeWhile notColon) = true then R1 else s) = s
        rw [if_neg (by simp [hv])]
    unfold netlocRaw
    rw [hsplit, h1, h2, h3, ← h1]
    exact netlocTail_takeWhile_hash s
  · cases hR : s.dropWhile notColon with
    | nil =>
      have hs2 : s.takeWhile notColon = s := by
        have h := List.takeWhile_append_dropWhile notColon s
        rw [hR, List.append_nil] at h
        exact h
      have hnohash : ∀ c ∈ s, (c != '#') = true := by
        intro c hc
        by_contra hcc
        have he : c = '#' := by simpa using hcc
        rw [hs2] at hA
        rw [he] at hc
        exact hA hc
      rw [show splitHash s = s from takeWhile_of_all s hnohash]
    | cons c R1 =>
      have hcc : notColon c = false := by
        have h := List.head?_dropWhile_not notColon s
        rw [hR] at h
        simpa using h
      have hs2 : s.takeWhile notColon ++ c :: R1 = s := by
        have h := List.takeWhile_append_dropWhile notColon s
        rw [hR] at h
        exact h
      have hallA : ∀ d ∈ s.takeWhile notColon, (d != '#') = true := by
        intro d hd
        by_contra hdc
        have he : d = '#' := by simpa using hdc
        rw [he] at hd
        exact hA hd
      have hch : (c != '#') = true := by
        have he : c = ':' := by simpa [notColon] using hcc
        simp [he]
      have h1 : splitHash s =
          s.takeWhile notColon ++ c :: R1.takeWhile (fun x => x != '#') := by
        rw [hsplit]
        conv_lhs => rw [← hs2]
        rw [takeWhile_append_of_all _ _ hallA, List.takeWhile_cons, if_pos hch]
      have hA2 : ∀ d ∈ s.takeWhile notColon, notColon d = true :=
        fun d hd => List.mem_takeWhile_imp hd
      have e1 : (splitHash s).dropWhile notColon =
          c :: R1.takeWhile (fun x => x != '#') := by
        rw [h1]
        exact dropWhile_append_cons _ _ c hA2 hcc
      have e2 : (splitHash s).takeWhile notColon = s.takeWhile notColon := by
        rw [h1]
        exact takeWhile_append_cons _ _ c hA2 hcc
      have ha1 : afterScheme (splitHash s) =
          (if validScheme (s.takeWhile notColon) = true
            then R1.takeWhile (fun x => x != '#') else splitHash s) := by
        unfold afterScheme
        rw [e1, e2]
      have ha2 : afterScheme s =
          (if validScheme (s.takeWhile notColon) = true then R1 else s) := by
        unfold afterScheme
        rw [hR]
      unfold netlocRaw
      rw [ha1, ha2]
      by_cases hv : validScheme (s.takeWhile notColon) = true
      · rw [if_pos hv, if_pos hv]
        exact netlocTail_takeWhile_hash R1
      · rw [if_neg hv, if_neg hv]
        rw [hsplit]
        exact netlocTail_takeWhile_hash s

theorem netlocLow_splitHash (v : Str) : netlocLow (splitHash v) = netlocLow v := by
  unfold netlocLow pyUrlparse
  rw [netlocRaw_splitHash]
  by_cases hb : badBrackets (netlocRaw v) = true
  · rw [if_pos hb, if_pos hb]
  · rw [if_neg hb, if_neg hb]

theorem pyUrlparse_ok_parts (s : Str) (p : PyUrl) (h : pyUrlparse s = .ok p) :
    schemeOf s = p.scheme ∧ netlocRaw s = p.netloc ∧ badBrackets (netlocRaw s) = false := by
  unfold pyUrlparse at h
  by_cases hb : badBrackets (netlocRaw s) = true
  · rw [if_pos hb] at h
    exact absurd h (by simp)
  · rw [if_neg hb] at h
    have h2 := Except.ok.inj h
    refine ⟨?_, ?_, by simpa using hb⟩
    · rw [← h2]
    · rw [← h2]

theorem homepage_collect_same (base : Str) :
    ∀ (l : List Str) (u : Str), u ∈ homepage_collect base l → same_domain base u = true := by
  intro l
  induction l with
  | nil => intro u h; simp [homepage_collect] at h
  | cons h rest ih =>
    intro u hu
    by_cases hs : skipHref h = true
    · rw [show homepage_collect base (h :: rest) = homepage_collect base rest from by
        simp [homepage_collect, hs]] at hu
      exact ih u hu
    · have hs2 : skipHref h = false := by simpa using hs
      by_cases hbb : badBrackets (netlocRaw h) = true
      · rw [show homepage_collect base (h :: rest) = [] from by
          simp [homepage_collect, hs2, hbb]] at hu
        simp at hu
      · have hbb2 : badBrackets (netlocRaw h) = false := by simpa using hbb
        by_cases hcond : (same_domain base (splitHash (pyUrljoin base h)) &&
            kwSearch (splitHash (pyUrljoin base h))) = true
        · rw [show homepage_collect base (h :: rest) =
              splitHash (pyUrljoin base h) :: homepage_collect base rest from by
            simp [homepage_collect, hs2, hbb2, hcond]] at hu
          have hc2 : same_domain base (splitHash (pyUrljoin base h)) = true ∧
              kwSearch (splitHash (pyUrljoin base h)) = true := by simpa using hcond
          rcases List.mem_cons.mp hu with h1 | h1
          · rw [h1]
            exact hc2.1
          · exact ih u h1
        · rw [show homepage_collect base (h :: rest) = homepage_collect base rest from by
            simp [homepage_collect, hs2, hbb2, hcond]] at hu
          exact ih u hu

theorem fetch_homepage_same (getResp : Str → Option (Nat × Str)) (base u : Str)
    (hu : u ∈ fetch_homepage_hits getResp base) : same_domain base u = true := by
  cases hg : getResp base with
  | none =>
    simp only [fetch_homepage_hits, hg] at hu
    simp at hu
  | some cr =>
    obtain ⟨code, text⟩ := cr
    simp only [fetch_homepage_hits, hg] at hu
    by_cases hc : 400 ≤ code
    · rw [if_pos hc] at hu; simp at hu
    · rw [if_neg hc] at hu
      exact homepage_collect_same base _ u hu

theorem sitemap_one_mem (getResp : Str → Option (Nat × Str)) (smCap : Nat) (base sm u : Str)
    (hu : u ∈ sitemap_one getResp smCap base sm) :
    ∃ v, same_domain base v = true ∧ u = splitHash v := by
  cases hg : getResp (pyUrljoin base sm) with
  | none =>
    simp only [sitemap_one, hg] at hu
    simp at hu
  | some cr =>
    obtain ⟨code, text⟩ := cr
    simp only [sitemap_one, hg] at hu
    by_cases hc : 400 ≤ code
    · rw [if_pos hc] at hu; simp at hu
    · rw [if_neg hc] at hu
      rcases List.mem_map.mp hu with ⟨v, hv, hsp⟩
      rcases List.mem_filter.mp hv with ⟨_, hcond⟩
      have hc2 : same_domain base v = true ∧ kwSearch v = true := by simpa using hcond
      exact ⟨v, hc2.1, hsp.symm⟩

theorem common_paths_facts :
    ∀ p ∈ COMMON_PATHS, p ≠ [] ∧ schemeOf p = [] ∧ startsWithStr (str "//") p = false ∧
      startsWithStr (str "/") p = true ∧ p.head? = some '/' := by decide

/-- Claim C5: every candidate url that discover_for_site emits for a store
    with a nonempty normalized base has the same lowercased netloc as that
    base: the path probe appends fixed absolute paths to the origin, the
    sitemap and homepage producers admit only urls passing same_domain, and
    for sitemap entries the fragment strip applied after the check cannot
    change the netloc. -/
theorem discover_same_origin (headOk : Str → Bool) (getResp : Str → Option (Nat × Str))
    (smCap cap : Nat) (website base : Str) (res : List Str)
    (hb : normalize_base website = .ok base) (hne : base ≠ [])
    (hres : discover_for_site headOk getResp smCap cap website = .ok res) :
    ∃ hostLow, netlocLow base = some hostLow ∧ ∀ u ∈ res, netlocLow u = some hostLow := by
  have hstrip : pyStrip website ≠ [] := by
    intro h0
    apply hne
    have h2 : normalize_base website = .ok [] := by
      simp only [normalize_base]
      rw [if_pos h0]
    rw [h2] at hb
    exact (Except.ok.inj hb).symm
  obtain ⟨host, hsh0, hall, hbad⟩ := normalize_base_shape website base hb hstrip
  have hsh : base = str "http://" ++ host ∨ base = str "https://" ++ host := by
    rcases hsh0 with ⟨he0, _⟩ | he0
    · exact Or.inl he0
    · exact Or.inr he0
  have htw : host.takeWhile notDelim = host := takeWhile_of_all host hall
  have hkey : (∃ sch, pyUrlparse base = .ok ⟨sch, host⟩) ∧
      (∀ p ∈ COMMON_PATHS, netlocLow (pyUrljoin base p) = some (toLowerStr host)) := by
    rcases hsh with hbase | hbase
    · have hpb : pyUrlparse base = .ok ⟨str "http", host⟩ := by
        rw [hbase, parse_http, htw, if_neg (by simp [hbad])]
      refine ⟨⟨str "http", hpb⟩, ?_⟩
      intro p hp
      have hf := common_paths_facts p hp
      obtain ⟨hsc, hnl, _⟩ := pyUrlparse_ok_parts base _ hpb
      have hborig : baseOrigin base = base := by
        unfold baseOrigin
        rw [hsc, hnl, hbase]
        rfl
      have hju : pyUrljoin base p = base ++ p := by
        unfold pyUrljoin
        rw [if_neg hf.1, if_neg (by simp [hf.2.1]), if_neg (by simp [hf.2.2.1]),
          if_pos hf.2.2.2.1, hborig]
      rw [hju, hbase, List.append_assoc]
      unfold netlocLow
      rw [parse_http]
      have hdstop : ((host ++ p).takeWhile notDelim) = host := by
        cases p with
        | nil => exact absurd rfl hf.1
        | cons c0 pt =>
          have hc0 : c0 = '/' := by simpa using hf.2.2.2.2
          rw [hc0]
          exact takeWhile_append_cons host pt '/' hall (by decide)
      rw [hdstop, if_neg (by simp [hbad])]
    · have hpb : pyUrlparse base = .ok ⟨str "https", host⟩ := by
        rw [hbase, parse_https, htw, if_neg (by simp [hbad])]
      refine ⟨⟨str "https", hpb⟩, ?_⟩
      intro p hp
      have hf := common_paths_facts p hp
      obtain ⟨hsc, hnl, _⟩ := pyUrlparse_ok_parts base _ hpb
      have hborig : baseOrigin base = base := by
        unfold baseOrigin
        rw [hsc, hnl, hbase]
        rfl
      have hju : pyUrljoin base p = base ++ p := by
        unfold pyUrljoin
        rw [if_neg hf.1, if_neg (by simp [hf.2.1]), if_neg (by simp [hf.2.2.1]),
          if_pos hf.2.2.2.1, hborig]
      rw [hju, hbase, List.append_assoc]
      unfold netlocLow
      rw [parse_https]
      have hdstop : ((host ++ p).takeWhile notDelim) = host := by
        cases p with
        | nil => exact absurd rfl hf.1
        | cons c0 pt =>
          have hc0 : c0 = '/' := by simpa using hf.2.2.2.2
          rw [hc0]
          exact takeWhile_append_cons host pt '/' hall (by decide)
      rw [hdstop, if_neg (by simp [hbad])]
  obtain ⟨⟨sch, hpb⟩, hjoin⟩ := hkey
  have hnb : netlocLow base = some (toLowerStr host) := by
    unfold netlocLow
    rw [hpb]
  refine ⟨toLowerStr host, hnb, ?_⟩
  have he : discover_for_site headOk getResp smCap cap website =
      .ok ((((probe_hits headOk base ++ fetch_sitemap_hits getResp smCap base ++
        fetch_homepage_hits getResp base).dedup).insertionSort strLe).take cap) := by
    simp only [discover_for_site, hb]
    rw [if_neg hne]
  rw [he] at hres
  have hres2 := (Except.ok.inj hres).symm
  intro u hu
  rw [hres2] at hu
  have hu2 : u ∈ probe_hits headOk base ++ fetch_sitemap_hits getResp smCap base ++
      fetch_homepage_hits getResp base :=
    List.dedup_subset _ (((List.perm_insertionSort strLe _).mem_iff).mp
      (List.take_subset _ _ hu))
  have hsd : ∀ v, same_domain base v = true → netlocLow v = some (toLowerStr host) := by
    intro v hv
    obtain ⟨pb, pu, hpb2, hpu, hel⟩ := same_domain_ok_parts base v hv
    rw [hpb] at hpb2
    have hpbeq : pb = (⟨sch, host⟩ : PyUrl) := (Except.ok.inj hpb2).symm
    unfold netlocLow
    rw [hpu]
    show some (toLowerStr pu.netloc) = some (toLowerStr host)
    rw [← hel, hpbeq]
  rcases List.mem_append.mp hu2 with h12 | hhp
  · rcases List.mem_append.mp h12 with hpr | hsm
    · simp only [probe_hits] at hpr
      rcases List.mem_filter.mp hpr with ⟨hmem, _⟩
      rcases List.mem_map.mp hmem with ⟨p, hp, hup⟩
      rw [← hup]
      exact hjoin p hp
    · simp only [fetch_sitemap_hits] at hsm
      rcases List.mem_append.mp hsm with h1 | h1
      · obtain ⟨v, hv, huv⟩ := sitemap_one_mem _ _ _ _ _ h1
        rw [huv, netlocLow_splitHash]
        exact hsd v hv
      · obtain ⟨v, hv, huv⟩ := sitemap_one_mem _ _ _ _ _ h1
        rw [huv, netlocLow_splitHash]
        exact hsd v hv
  · exact hsd u (fetch_homepage_same getResp base u hhp)

/-- Witness for C5 at a concrete store, with every HEAD probe succeeding
    and a sitemap offering one same-origin and one foreign location. -/
theorem discover_same_origin_witness :
    ∃ hostLow, netlocLow (str "https://shopdeals.example") = some hostLow ∧
      ∀ u ∈ [str "https://shopdeals.example/catalog",
        str "https://shopdeals.example/catalogue", str "https://shopdeals.example/clearance"],
        netlocLow u = some hostLow :=
  discover_same_origin (fun _ => true) (fun _ => none) 3000 3 (str "shopdeals.example")
    (str "https://shopdeals.example")
    [str "https://shopdeals.example/catalog", str "https://shopdeals.example/catalogue",
      str "https://shopdeals.example/clearance"]
    rfl (by decide) rfl
